import Mathlib

/-!
Shallow embedding, in Lean 4, of the kururu binarization-and-landmark
pipeline (src/butterfly/binarization.py and src/mothra/tracing.py).

Conventions of the embedding:
* A numpy boolean 2-D array is a `Mask := List (List Bool)` (row-major);
  out-of-bounds reads default to `false`, matching the fact that the
  Python code never reads out of bounds.
* Machine floats are modelled exactly: the float computations in the
  source (`np.linalg.norm`, centroid division, Otsu arithmetic) are
  embedded over `ℚ`/`ℤ`; Euclidean-distance comparisons are embedded via
  squared distances over `ℤ` (`sqrt` is monotone, so argmax is unchanged).
* Fallible code returns `Except Err α`.  The numpy/scipy/skimage
  untyped `ValueError`s (argmax/min of an empty sequence, `int(nan)`,
  Otsu on a constant image) are embedded as `Err.valueError`.  The error
  taxonomy names that the specification postulates (`ThresholdingFailed`,
  `NoRegionsFound`) are additional constructors of `Err` that the code
  under `src/` never produces; they exist so that claims about them can
  be stated and settled.
* `scipy.ndimage.label` with `generate_binary_structure(2, 1)`
  (4-connectivity) is embedded as a raster-order seeded flood fill with
  a fuel bound that exceeds the total possible number of stack
  operations (each cell is visited at most once and pushes at most 4
  neighbours, so `5*(h*w)+5` units of fuel always suffice).  Regions are
  listed in raster order of their first pixel and each region's
  coordinate list is in raster (row-major) order, matching
  `skimage.measure.regionprops` on a `scipy.ndimage.label` output.
-/

namespace Kururu

/-- Error outcomes of the embedded pipeline.  `valueError` stands for the
untyped Python `ValueError` raised by numpy/scipy/skimage helpers; the
other two constructors encode the typed domain errors that the
specification's error taxonomy (§7) postulates. -/
inductive Err where
  | valueError
  | thresholdingFailed
  | noRegionsFound
deriving DecidableEq

/-- An integer (row, col) pixel coordinate. -/
abbrev Point : Type := Nat × Nat

/-- A numpy 2-D boolean array, row-major. -/
abbrev Mask : Type := List (List Bool)

/-- Bounds-checked read; out of bounds is `false` (never exercised by
in-bounds code paths, mirrors `binary[r, c]`). -/
def get (m : Mask) (r c : Nat) : Bool := (m.getD r []).getD c false

/-- `shape[0]` of the array. -/
def height (m : Mask) : Nat := m.length

/-- `shape[1]` of the array (length of the first row; all arrays the code
builds are rectangular). -/
def width (m : Mask) : Nat := (m.headD []).length

/-- Build an `h × w` array from a pixel function. -/
def mkGrid (h w : Nat) (f : Nat → Nat → Bool) : Mask :=
  (List.range h).map fun r => (List.range w).map fun c => f r c

/-- `1 - mask` (logical complement), as in `1 - half_binary`. -/
def complement (m : Mask) : Mask := m.map (List.map fun b => !b)

/-- All coordinates of an `h × w` array in raster (row-major) order. -/
def cells (h w : Nat) : List Point :=
  ((List.range h).map fun r => (List.range w).map fun c => (r, c)).flatten

theorem mem_cells {h w : Nat} {p : Point} :
    p ∈ cells h w ↔ p.1 < h ∧ p.2 < w := by
  unfold cells
  constructor
  · intro hp
    rcases List.mem_flatten.mp hp with ⟨l, hl, hpl⟩
    rcases List.mem_map.mp hl with ⟨r, hr, rfl⟩
    rcases List.mem_map.mp hpl with ⟨c, hc, rfl⟩
    exact ⟨List.mem_range.mp hr, List.mem_range.mp hc⟩
  · intro ⟨h1, h2⟩
    refine List.mem_flatten.mpr ⟨(List.range w).map fun c => (p.1, c), ?_, ?_⟩
    · exact List.mem_map.mpr ⟨p.1, List.mem_range.mpr h1, rfl⟩
    · exact List.mem_map.mpr ⟨p.2, List.mem_range.mpr h2, rfl⟩

/-! ### List helpers: min/max and first-occurrence argmax/argmin

`np.min`, `np.max`, `np.argmax`, `np.argmin`: on ties, numpy's
argmax/argmin return the first maximising/minimising index, which is
what the fold below does (it replaces the candidate only on a strict
improvement). -/

/-- Minimum of a list of naturals (`np.min`); `0` on the empty list,
which the code never queries. -/
def listMin : List Nat → Nat
  | [] => 0
  | x :: xs => xs.foldl Nat.min x

/-- Maximum of a list of naturals (`np.max`); `0` on the empty list. -/
def listMax : List Nat → Nat
  | [] => 0
  | x :: xs => xs.foldl Nat.max x

theorem foldl_max_mem (x : Nat) (xs : List Nat) :
    xs.foldl Nat.max x = x ∨ xs.foldl Nat.max x ∈ xs := by
  induction xs generalizing x with
  | nil => exact Or.inl rfl
  | cons y ys ih =>
    have hc : Nat.max x y = x ∨ Nat.max x y = y := max_choice x y
    rcases ih (Nat.max x y) with h | h
    · rcases hc with hc | hc
      · exact Or.inl (by rw [List.foldl_cons] at *; rw [h, hc])
      · refine Or.inr (List.mem_cons.mpr (Or.inl ?_))
        rw [List.foldl_cons] at *; rw [h, hc]
    · exact Or.inr (List.mem_cons_of_mem _ h)

theorem foldl_max_ge (x : Nat) (xs : List Nat) :
    x ≤ xs.foldl Nat.max x ∧ ∀ a ∈ xs, a ≤ xs.foldl Nat.max x := by
  induction xs generalizing x with
  | nil => exact ⟨Nat.le_refl x, by simp⟩
  | cons y ys ih =>
    obtain ⟨h1, h2⟩ := ih (Nat.max x y)
    refine ⟨Nat.le_trans (Nat.le_max_left x y) h1, ?_⟩
    intro a ha
    rcases List.mem_cons.mp ha with rfl | ha
    · exact Nat.le_trans (Nat.le_max_right x a) h1
    · exact h2 a ha

theorem foldl_min_mem (x : Nat) (xs : List Nat) :
    xs.foldl Nat.min x = x ∨ xs.foldl Nat.min x ∈ xs := by
  induction xs generalizing x with
  | nil => exact Or.inl rfl
  | cons y ys ih =>
    have hc : Nat.min x y = x ∨ Nat.min x y = y := min_choice x y
    rcases ih (Nat.min x y) with h | h
    · rcases hc with hc | hc
      · exact Or.inl (by rw [List.foldl_cons] at *; rw [h, hc])
      · refine Or.inr (List.mem_cons.mpr (Or.inl ?_))
        rw [List.foldl_cons] at *; rw [h, hc]
    · exact Or.inr (List.mem_cons_of_mem _ h)

theorem foldl_min_le (x : Nat) (xs : List Nat) :
    xs.foldl Nat.min x ≤ x ∧ ∀ a ∈ xs, xs.foldl Nat.min x ≤ a := by
  induction xs generalizing x with
  | nil => exact ⟨Nat.le_refl x, by simp⟩
  | cons y ys ih =>
    obtain ⟨h1, h2⟩ := ih (Nat.min x y)
    refine ⟨Nat.le_trans h1 (Nat.min_le_left x y), ?_⟩
    intro a ha
    rcases List.mem_cons.mp ha with rfl | ha
    · exact Nat.le_trans h1 (Nat.min_le_right x a)
    · exact h2 a ha

theorem listMax_mem {l : List Nat} (h : l ≠ []) : listMax l ∈ l := by
  match l with
  | x :: xs =>
    have hd : listMax (x :: xs) = xs.foldl Nat.max x := rfl
    rw [hd]
    rcases foldl_max_mem x xs with h' | h'
    · rw [h']; exact List.mem_cons_self _ _
    · exact List.mem_cons_of_mem _ h'

theorem le_listMax {l : List Nat} {a : Nat} (h : a ∈ l) : a ≤ listMax l := by
  match l with
  | x :: xs =>
    have hd : listMax (x :: xs) = xs.foldl Nat.max x := rfl
    rw [hd]
    rcases List.mem_cons.mp h with rfl | h'
    · exact (foldl_max_ge a xs).1
    · exact (foldl_max_ge x xs).2 a h'

theorem listMin_mem {l : List Nat} (h : l ≠ []) : listMin l ∈ l := by
  match l with
  | x :: xs =>
    have hd : listMin (x :: xs) = xs.foldl Nat.min x := rfl
    rw [hd]
    rcases foldl_min_mem x xs with h' | h'
    · rw [h']; exact List.mem_cons_self _ _
    · exact List.mem_cons_of_mem _ h'

theorem listMin_le {l : List Nat} {a : Nat} (h : a ∈ l) : listMin l ≤ a := by
  match l with
  | x :: xs =>
    have hd : listMin (x :: xs) = xs.foldl Nat.min x := rfl
    rw [hd]
    rcases List.mem_cons.mp h with rfl | h'
    · exact (foldl_min_le a xs).1
    · exact (foldl_min_le x xs).2 a h'

/-- `np.argmax` composed with indexing: the first element of the list whose
`f`-value is maximal (the fold replaces the candidate only on a strict
improvement, exactly numpy's first-maximum tie rule). -/
def argmaxBy {α β : Type} [LinearOrder β] (f : α → β) : List α → Option α
  | [] => none
  | x :: xs => some (xs.foldl (fun b a => if f b < f a then a else b) x)

/-- `np.argmin` composed with indexing: first element of minimal `f`-value. -/
def argminBy {α β : Type} [LinearOrder β] (f : α → β) : List α → Option α
  | [] => none
  | x :: xs => some (xs.foldl (fun b a => if f a < f b then a else b) x)

theorem argmax_foldl_mem {α β : Type} [LinearOrder β] (f : α → β) (x : α)
    (xs : List α) :
    xs.foldl (fun b a => if f b < f a then a else b) x = x ∨
      xs.foldl (fun b a => if f b < f a then a else b) x ∈ xs := by
  induction xs generalizing x with
  | nil => exact Or.inl rfl
  | cons y ys ih =>
    rw [List.foldl_cons]
    rcases ih (if f x < f y then y else x) with h | h
    · rw [h]; split
      · exact Or.inr (List.mem_cons_self _ _)
      · exact Or.inl rfl
    · exact Or.inr (List.mem_cons_of_mem _ h)

theorem argmax_foldl_ge {α β : Type} [LinearOrder β] (f : α → β) (x : α)
    (xs : List α) :
    f x ≤ f (xs.foldl (fun b a => if f b < f a then a else b) x) ∧
      ∀ a ∈ xs, f a ≤ f (xs.foldl (fun b a => if f b < f a then a else b) x) := by
  induction xs generalizing x with
  | nil => exact ⟨le_refl _, by simp⟩
  | cons y ys ih =>
    rw [List.foldl_cons]
    obtain ⟨h1, h2⟩ := ih (if f x < f y then y else x)
    have hx : f x ≤ f (if f x < f y then y else x) := by
      split
      · exact le_of_lt (by assumption)
      · exact le_refl _
    have hy : f y ≤ f (if f x < f y then y else x) := by
      split
      · exact le_refl _
      · exact le_of_not_lt (by assumption)
    refine ⟨le_trans hx h1, ?_⟩
    intro a ha
    rcases List.mem_cons.mp ha with rfl | ha
    · exact le_trans hy h1
    · exact h2 a ha

theorem argmin_foldl_mem {α β : Type} [LinearOrder β] (f : α → β) (x : α)
    (xs : List α) :
    xs.foldl (fun b a => if f a < f b then a else b) x = x ∨
      xs.foldl (fun b a => if f a < f b then a else b) x ∈ xs := by
  induction xs generalizing x with
  | nil => exact Or.inl rfl
  | cons y ys ih =>
    rw [List.foldl_cons]
    rcases ih (if f y < f x then y else x) with h | h
    · rw [h]; split
      · exact Or.inr (List.mem_cons_self _ _)
      · exact Or.inl rfl
    · exact Or.inr (List.mem_cons_of_mem _ h)

theorem argmin_foldl_le {α β : Type} [LinearOrder β] (f : α → β) (x : α)
    (xs : List α) :
    f (xs.foldl (fun b a => if f a < f b then a else b) x) ≤ f x ∧
      ∀ a ∈ xs, f (xs.foldl (fun b a => if f a < f b then a else b) x) ≤ f a := by
  induction xs generalizing x with
  | nil => exact ⟨le_refl _, by simp⟩
  | cons y ys ih =>
    rw [List.foldl_cons]
    obtain ⟨h1, h2⟩ := ih (if f y < f x then y else x)
    have hx : f (if f y < f x then y else x) ≤ f x := by
      split
      · exact le_of_lt (by assumption)
      · exact le_refl _
    have hy : f (if f y < f x then y else x) ≤ f y := by
      split
      · exact le_refl _
      · exact le_of_not_lt (by assumption)
    refine ⟨le_trans h1 hx, ?_⟩
    intro a ha
    rcases List.mem_cons.mp ha with rfl | ha
    · exact le_trans h1 hy
    · exact h2 a ha

theorem argmaxBy_eq_some {α β : Type} [LinearOrder β] (f : α → β)
    {l : List α} (h : l ≠ []) : ∃ x, argmaxBy f l = some x := by
  match l with
  | x :: xs => exact ⟨_, rfl⟩

theorem argmaxBy_mem {α β : Type} [LinearOrder β] {f : α → β}
    {l : List α} {x : α} (h : argmaxBy f l = some x) : x ∈ l := by
  match l with
  | [] => exact absurd h (by simp [argmaxBy])
  | y :: ys =>
    have hx : x = ys.foldl (fun b a => if f b < f a then a else b) y := by
      simpa [argmaxBy] using h.symm
    rcases argmax_foldl_mem f y ys with h' | h'
    · rw [hx, h']; exact List.mem_cons_self _ _
    · rw [hx]; exact List.mem_cons_of_mem _ h'

theorem argmaxBy_le {α β : Type} [LinearOrder β] {f : α → β}
    {l : List α} {x : α} (h : argmaxBy f l = some x) :
    ∀ y ∈ l, f y ≤ f x := by
  match l with
  | [] => simp
  | z :: zs =>
    have hx : x = zs.foldl (fun b a => if f b < f a then a else b) z := by
      simpa [argmaxBy] using h.symm
    intro y hy
    rw [hx]
    rcases List.mem_cons.mp hy with rfl | hy
    · exact (argmax_foldl_ge f y zs).1
    · exact (argmax_foldl_ge f z zs).2 y hy

theorem argminBy_eq_some {α β : Type} [LinearOrder β] (f : α → β)
    {l : List α} (h : l ≠ []) : ∃ x, argminBy f l = some x := by
  match l with
  | x :: xs => exact ⟨_, rfl⟩

theorem argminBy_mem {α β : Type} [LinearOrder β] {f : α → β}
    {l : List α} {x : α} (h : argminBy f l = some x) : x ∈ l := by
  match l with
  | [] => exact absurd h (by simp [argminBy])
  | y :: ys =>
    have hx : x = ys.foldl (fun b a => if f a < f b then a else b) y := by
      simpa [argminBy] using h.symm
    rcases argmin_foldl_mem f y ys with h' | h'
    · rw [hx, h']; exact List.mem_cons_self _ _
    · rw [hx]; exact List.mem_cons_of_mem _ h'

theorem argminBy_le {α β : Type} [LinearOrder β] {f : α → β}
    {l : List α} {x : α} (h : argminBy f l = some x) :
    ∀ y ∈ l, f x ≤ f y := by
  match l with
  | [] => simp
  | z :: zs =>
    have hx : x = zs.foldl (fun b a => if f a < f b then a else b) z := by
      simpa [argminBy] using h.symm
    intro y hy
    rw [hx]
    rcases List.mem_cons.mp hy with rfl | hy
    · exact (argmin_foldl_le f y zs).1
    · exact (argmin_foldl_le f z zs).2 y hy

/-! ### Stable descending sort

`list.sort(key=..., reverse=True)` (Python's Timsort) is a stable
descending sort; `np.argsort(-areas)` is modelled with the same stable
order (numpy's quicksort order on tied keys is unspecified; the stable
order is the deterministic choice, and no claim depends on the tie
order).  An element is inserted *before* the first already-placed
element of less-than-or-equal key, so earlier elements keep priority on
ties, which is exactly stability for a descending sort. -/

def insertDesc {α β : Type} [LinearOrder β] (f : α → β) (x : α) :
    List α → List α
  | [] => [x]
  | y :: ys => if f y ≤ f x then x :: y :: ys else y :: insertDesc f x ys

def sortByDesc {α β : Type} [LinearOrder β] (f : α → β) : List α → List α
  | [] => []
  | x :: xs => insertDesc f x (sortByDesc f xs)

theorem insertDesc_perm {α β : Type} [LinearOrder β] (f : α → β) (x : α)
    (l : List α) : (insertDesc f x l).Perm (x :: l) := by
  induction l with
  | nil => exact List.Perm.refl _
  | cons y ys ih =>
    rw [insertDesc]
    split
    · exact List.Perm.refl _
    · exact List.Perm.trans (List.Perm.cons y ih) (List.Perm.swap x y ys)

theorem sortByDesc_perm {α β : Type} [LinearOrder β] (f : α → β)
    (l : List α) : (sortByDesc f l).Perm l := by
  induction l with
  | nil => exact List.Perm.refl _
  | cons x xs ih =>
    exact List.Perm.trans (insertDesc_perm f x (sortByDesc f xs))
      (List.Perm.cons x ih)

theorem insertDesc_pairwise {α β : Type} [LinearOrder β] {f : α → β} (x : α)
    {l : List α} (h : l.Pairwise (fun a b => f b ≤ f a)) :
    (insertDesc f x l).Pairwise (fun a b => f b ≤ f a) := by
  induction l with
  | nil => simp [insertDesc]
  | cons y ys ih =>
    rw [insertDesc]
    rcases List.pairwise_cons.mp h with ⟨hy, hys⟩
    split
    · refine List.pairwise_cons.mpr ⟨?_, h⟩
      intro z hz
      rcases List.mem_cons.mp hz with rfl | hz
      · assumption
      · exact le_trans (hy z hz) (by assumption)
    · refine List.pairwise_cons.mpr ⟨?_, ih hys⟩
      intro z hz
      have hz' : z ∈ x :: ys := (insertDesc_perm f x ys).mem_iff.mp hz
      rcases List.mem_cons.mp hz' with rfl | hz'
      · exact le_of_lt (lt_of_not_le (by assumption))
      · exact hy z hz'

theorem sortByDesc_pairwise {α β : Type} [LinearOrder β] (f : α → β)
    (l : List α) : (sortByDesc f l).Pairwise (fun a b => f b ≤ f a) := by
  induction l with
  | nil => simp [sortByDesc]
  | cons x xs ih => exact insertDesc_pairwise x ih

theorem sortByDesc_length {α β : Type} [LinearOrder β] (f : α → β)
    (l : List α) : (sortByDesc f l).length = l.length :=
  (sortByDesc_perm f l).length_eq

theorem sortByDesc_mem {α β : Type} [LinearOrder β] (f : α → β)
    {l : List α} {x : α} (h : x ∈ sortByDesc f l) : x ∈ l :=
  (sortByDesc_perm f l).mem_iff.mp h

/-! ### Region Analyzer

Embedding of `scipy.ndimage.label(g, generate_binary_structure(2, 1))`
followed by `skimage.measure.regionprops`: 4-connected components of the
true cells of `g` restricted to the `h × w` window, listed in raster
order of each component's first pixel, with each component's coordinate
list in raster order (as `regionprops.coords` is). -/

/-- 4-neighbours of a coordinate (the `generate_binary_structure(2, 1)`
cross, minus the centre). -/
def neighbors4 (p : Point) : List Point :=
  [(p.1 + 1, p.2), (p.1, p.2 + 1)] ++
    (if 0 < p.1 then [(p.1 - 1, p.2)] else []) ++
    (if 0 < p.2 then [(p.1, p.2 - 1)] else [])

/-- In-window foreground 4-neighbours. -/
def nbrsOf (g : Nat → Nat → Bool) (h w : Nat) (p : Point) : List Point :=
  (neighbors4 p).filter fun q => decide (q.1 < h) && decide (q.2 < w) && g q.1 q.2

/-- Depth-first flood fill with explicit fuel.  Each cell enters `vis` at
most once and pushes at most 4 neighbours, so at most `4*h*w + 1` stack
pops can ever happen; the caller passes fuel `5*(h*w) + 5`, which always
suffices, making the function a faithful total model of the library's
flood labelling. -/
def floodAux (g : Nat → Nat → Bool) (h w : Nat) :
    Nat → List Point → List Point → List Point
  | 0, _, vis => vis
  | _ + 1, [], vis => vis
  | fuel + 1, p :: st, vis =>
    if p ∈ vis then floodAux g h w fuel st vis
    else floodAux g h w fuel (nbrsOf g h w p ++ st) (vis ++ [p])

/-- The 4-connected component of seed `s` in window `h × w`. -/
def flood (g : Nat → Nat → Bool) (h w : Nat) (s : Point) : List Point :=
  floodAux g h w (5 * (h * w) + 5) [s] []

/-- One labelled region: `regionprops` exposes its coordinate list (raster
order); area and bounding box are derived below. -/
structure Region where
  coords : List Point
deriving DecidableEq

/-- `region.area` (pixel count). -/
def Region.area (R : Region) : Nat := R.coords.length

/-- `region.bbox[1]` (min column of the bounding box). -/
def Region.bboxLeft (R : Region) : Nat := listMin (R.coords.map Prod.snd)

/-- `region.bbox[3]` (max column of the bounding box plus one, half-open). -/
def Region.bboxRight (R : Region) : Nat := listMax (R.coords.map Prod.snd) + 1

/-- Raster scan assigning labels: each unlabelled foreground cell met in
raster order seeds a new region (exactly `scipy.ndimage.label`'s label
order); `seen` accumulates all already-labelled cells. -/
def compsAux (g : Nat → Nat → Bool) (h w : Nat) :
    List Point → List Point → List Region
  | [], _ => []
  | p :: rest, seen =>
    if g p.1 p.2 && !(decide (p ∈ seen)) then
      let f := flood g h w p
      ⟨(cells h w).filter fun q => decide (q ∈ f)⟩ ::
        compsAux g h w rest (seen ++ f)
    else compsAux g h w rest seen

/-- All 4-connected foreground regions of the `h × w` window of `g`, in
label order. -/
def components (h w : Nat) (g : Nat → Nat → Bool) : List Region :=
  compsAux g h w (cells h w) []

/-- Regions of a mask (`regionprops(label(m, structure_4conn))`). -/
def regionsOf (m : Mask) : List Region :=
  components (height m) (width m) (get m)

theorem floodAux_vis_subset (g : Nat → Nat → Bool) (h w : Nat)
    (fuel : Nat) (st vis : List Point) :
    ∀ q ∈ vis, q ∈ floodAux g h w fuel st vis := by
  induction fuel generalizing st vis with
  | zero => intro q hq; simpa [floodAux] using hq
  | succ n ih =>
    match st with
    | [] => intro q hq; simpa [floodAux] using hq
    | p :: st' =>
      intro q hq
      rw [floodAux]
      split
      · exact ih st' vis q hq
      · exact ih _ (vis ++ [p]) q (List.mem_append_left _ hq)

theorem flood_seed_mem (g : Nat → Nat → Bool) (h w : Nat) (s : Point) :
    s ∈ flood g h w s := by
  unfold flood
  rw [floodAux]
  simp only [List.not_mem_nil, if_neg]
  exact floodAux_vis_subset g h w _ _ [s] s (by simp)

/-- Every cell the flood returns is foreground (given a foreground seed):
the invariant is that every stack and visited cell is foreground. -/
theorem floodAux_fg (g : Nat → Nat → Bool) (h w : Nat)
    (fuel : Nat) (st vis : List Point)
    (hst : ∀ q ∈ st, g q.1 q.2 = true)
    (hvis : ∀ q ∈ vis, g q.1 q.2 = true) :
    ∀ q ∈ floodAux g h w fuel st vis, g q.1 q.2 = true := by
  induction fuel generalizing st vis with
  | zero => simpa [floodAux] using hvis
  | succ n ih =>
    match st with
    | [] => simpa [floodAux] using hvis
    | p :: st' =>
      rw [floodAux]
      split
      · exact ih st' vis (fun q hq => hst q (List.mem_cons_of_mem _ hq)) hvis
      · refine ih _ (vis ++ [p]) ?_ ?_
        · intro q hq
          rcases List.mem_append.mp hq with hq | hq
          · have := List.of_mem_filter hq
            simp only [Bool.and_eq_true, decide_eq_true_eq] at this
            exact this.2
          · exact hst q (List.mem_cons_of_mem _ hq)
        · intro q hq
          rcases List.mem_append.mp hq with hq | hq
          · exact hvis q hq
          · rw [List.mem_singleton.mp hq]
            exact hst p (List.mem_cons_self _ _)

theorem flood_fg (g : Nat → Nat → Bool) (h w : Nat) {s : Point}
    (hs : g s.1 s.2 = true) :
    ∀ q ∈ flood g h w s, g q.1 q.2 = true :=
  floodAux_fg g h w _ [s] []
    (fun q hq => (List.mem_singleton.mp hq) ▸ hs) (by simp)

/-- Structure of the regions that `compsAux` emits: each comes from a
foreground seed in the scanned cell list. -/
theorem compsAux_shape (g : Nat → Nat → Bool) (h w : Nat) :
    ∀ (todo seen : List Point), ∀ R ∈ compsAux g h w todo seen,
      ∃ s ∈ todo, g s.1 s.2 = true ∧
        R.coords = (cells h w).filter fun q => decide (q ∈ flood g h w s) := by
  intro todo
  induction todo with
  | nil => intro seen R hR; simp [compsAux] at hR
  | cons p rest ih =>
    intro seen R hR
    rw [compsAux] at hR
    by_cases hp : g p.1 p.2 && !(decide (p ∈ seen))
    · rw [if_pos hp] at hR
      rcases List.mem_cons.mp hR with rfl | hR
      · refine ⟨p, List.mem_cons_self _ _, ?_, rfl⟩
        simp only [Bool.and_eq_true] at hp
        exact hp.1
      · rcases ih _ R hR with ⟨s, hs, hfg, hc⟩
        exact ⟨s, List.mem_cons_of_mem _ hs, hfg, hc⟩
    · rw [if_neg hp] at hR
      rcases ih seen R hR with ⟨s, hs, hfg, hc⟩
      exact ⟨s, List.mem_cons_of_mem _ hs, hfg, hc⟩

/-- Every coordinate of every region lies inside the window. -/
theorem regionsOf_coords_bounds {m : Mask} {R : Region}
    (hR : R ∈ regionsOf m) :
    ∀ p ∈ R.coords, p.1 < height m ∧ p.2 < width m := by
  rcases compsAux_shape (get m) (height m) (width m) (cells _ _) [] R hR
    with ⟨s, _, _, hc⟩
  intro p hp
  rw [hc] at hp
  exact mem_cells.mp (List.mem_of_mem_filter hp)

/-- Every coordinate of every region is a foreground pixel. -/
theorem regionsOf_coords_fg {m : Mask} {R : Region}
    (hR : R ∈ regionsOf m) :
    ∀ p ∈ R.coords, get m p.1 p.2 = true := by
  rcases compsAux_shape (get m) (height m) (width m) (cells _ _) [] R hR
    with ⟨s, _, hfg, hc⟩
  intro p hp
  rw [hc] at hp
  have := List.of_mem_filter hp
  simp only [decide_eq_true_eq] at this
  exact flood_fg (get m) _ _ hfg p this

/-- Every region has at least one pixel (its seed). -/
theorem regionsOf_coords_ne_nil {m : Mask} {R : Region}
    (hR : R ∈ regionsOf m) : R.coords ≠ [] := by
  rcases compsAux_shape (get m) (height m) (width m) (cells _ _) [] R hR
    with ⟨s, hs, _, hc⟩
  have hmem : s ∈ R.coords := by
    rw [hc]
    exact List.mem_filter.mpr ⟨hs, by simpa using flood_seed_mem _ _ _ s⟩
  exact List.ne_nil_of_mem hmem

/-! ### src/mothra/tracing.py -/

/-- One step of `scipy.ndimage.binary_dilation` with the default
4-connected cross structure and `border_value=0`: a cell is set when it
or an in-bounds 4-neighbour is set.  (A rectangle is geodesically convex
for the L1 metric, so staying in-bounds matches scipy's array-confined
dilation exactly.) -/
def dilateOnce (m : Mask) : Mask :=
  mkGrid (height m) (width m) fun r c =>
    get m r c || get m (r + 1) c || (decide (0 < r) && get m (r - 1) c) ||
      get m r (c + 1) || (decide (0 < c) && get m r (c - 1))

/-- `sp.ndimage.binary_dilation(x, iterations=35)`. -/
def dilate35 (m : Mask) : Mask := dilateOnce^[35] m

/-- `markers == label` as a boolean array over the `h × w` frame. -/
def maskOfCoords (h w : Nat) (coords : List Point) : Mask :=
  mkGrid h w fun r c => decide ((r, c) ∈ coords)

/-- `tracing.remove_antenna`.  Labels the background (`1 - half_binary`),
takes the two largest background regions (`1 + np.argsort(-areas)[:2]`,
modelled with the stable descending sort), dilates each 35 times,
clears the intersection of the dilations on a copy of the input
(`without_antenna[intersection] = 0`).  With fewer than two background
regions the `IndexError` on `idx_sorted[0]`/`idx_sorted[1]` is caught
and the input is returned unchanged. -/
def remove_antenna (half_binary : Mask) : Mask :=
  match sortByDesc Region.area (regionsOf (complement half_binary)) with
  | R1 :: R2 :: _ =>
    let dilated_bg :=
      dilate35 (maskOfCoords (height half_binary) (width half_binary) R1.coords)
    let dilated_hole :=
      dilate35 (maskOfCoords (height half_binary) (width half_binary) R2.coords)
    mkGrid (height half_binary) (width half_binary) fun r c =>
      if get dilated_bg r c && get dilated_hole r c then false
      else get half_binary r c
  | _ => half_binary

/-- Squared Euclidean distance of a pixel to the reference `center`
(`np.linalg.norm(coords - center)`; `sqrt` is strictly monotone, so the
argmax over distances equals the argmax over squared distances). -/
def dist2 (center : Int × Int) (p : Point) : Int :=
  ((p.1 : Int) - center.1) ^ 2 + ((p.2 : Int) - center.2) ^ 2

/-- `tracing.detect_outer_pix`.  Labels the foreground, picks the region
of maximal area (`np.argmax(areas)`, first on ties), and within its
coordinates the pixel of maximal distance to `center`.  With no region at
all, `np.argmax([])` raises an untyped `ValueError`. -/
def detect_outer_pix (half_binary : Mask) (center : Int × Int) :
    Except Err Point :=
  match argmaxBy Region.area (regionsOf half_binary) with
  | none => .error .valueError
  | some R =>
    match argmaxBy (dist2 center) R.coords with
    | none => .error .valueError
    | some p => .ok p

/-- Left (`'l'`) or right wing, `detect_inner_pix`'s `side` argument. -/
inductive Side where
  | l
  | r
deriving DecidableEq

/-- The search window (`focus`) of `detect_inner_pix`:
rows `[0, int(0.75*h))` and, on the left side, columns
`[outer_pix[1], w)`; on the right side, columns `[0, outer_pix[1])`. -/
def inner_focus (half_binary : Mask) (outer_pix : Point) (side : Side) :
    Mask :=
  let lower_bound := 3 * height half_binary / 4
  match side with
  | .l => (half_binary.take lower_bound).map (List.drop outer_pix.2)
  | .r => (half_binary.take lower_bound).map (List.take outer_pix.2)

/-- `tracing.detect_inner_pix`.  Inverts the window, labels it, takes the
first-labelled region (`regions[0]`), the coordinates of maximal row,
and breaks the tie towards the body axis (max column on the left, min
column on the right).  `regions[0]` on an empty region list raises an
untyped `IndexError`/`ValueError`; the two inner `none` branches are
unreachable (the region is never empty). -/
def detect_inner_pix (half_binary : Mask) (outer_pix : Point) (side : Side) :
    Except Err Point :=
  match regionsOf (complement (inner_focus half_binary outer_pix side)) with
  | [] => .error .valueError
  | R :: _ =>
    let y_max := listMax (R.coords.map Prod.fst)
    let selection := R.coords.filter fun q => decide (q.1 = y_max)
    match side with
    | .l =>
      match argmaxBy Prod.snd selection with
      | none => .error .valueError
      | some p => .ok p
    | .r =>
      match argminBy Prod.snd selection with
      | none => .error .valueError
      | some p => .ok p

/-- Foreground count of column `c` (`np.sum(binary, axis=0)[c]`). -/
def colsum (binary : Mask) (c : Nat) : Nat :=
  (binary.map fun row => if row.getD c false then 1 else 0).sum

/-- Total foreground count over the columns of the frame. -/
def totalFg (binary : Mask) : Nat :=
  ((List.range (width binary)).map (colsum binary)).sum

/-- Column-index weighted foreground count. -/
def weightedFg (binary : Mask) : Nat :=
  ((List.range (width binary)).map fun c => c * colsum binary c).sum

/-- `tracing.split_picture`.  Per-column sums normalised to a
distribution, expectation of the column index, then `int(...)`: Python's
`int` truncates toward zero, which on this nonnegative value is the
floor, i.e. `weightedFg / totalFg` in natural division.  On an all-background
mask the normalisation divides by zero, the centroid is `nan`, and
`int(nan)` raises an untyped `ValueError`. -/
def split_picture (binary : Mask) : Except Err Nat :=
  if totalFg binary = 0 then .error .valueError
  else .ok (weightedFg binary / totalFg binary)

/-- The dictionary returned by `tracing.main`: exactly the five landmark
keys. -/
structure PointsInterest where
  outer_pix_l : Point
  inner_pix_l : Point
  outer_pix_r : Point
  inner_pix_r : Point
  body_center : Point
deriving DecidableEq

/-- `tracing.main` (the Landmark Orchestrator), without the write-only
plotting side effects.  Splits at the midline, computes the body centre
as the row centroid of the midline column (`int(np.mean(np.argwhere(...)))`
raises an untyped `ValueError` when the column is empty), then runs
antenna removal and the two detectors on each half; the right-half
results and the left inner pixel are translated by their column
offsets. -/
def tracing_main (binary : Mask) : Except Err PointsInterest :=
  match split_picture binary with
  | .error e => .error e
  | .ok middle =>
    let fgRows := (List.range (height binary)).filter fun r => get binary r middle
    if fgRows.isEmpty then .error .valueError
    else
      let middle_y := fgRows.sum / fgRows.length
      let without_antenna_l := remove_antenna (binary.map (List.take middle))
      match detect_outer_pix without_antenna_l ((middle_y : Int), (middle : Int)) with
      | .error e => .error e
      | .ok outer_pix_l =>
        match detect_inner_pix without_antenna_l outer_pix_l .l with
        | .error e => .error e
        | .ok inner_pix_l =>
          let without_antenna_r := remove_antenna (binary.map (List.drop middle))
          match detect_outer_pix without_antenna_r ((middle_y : Int), 0) with
          | .error e => .error e
          | .ok outer_pix_r =>
            match detect_inner_pix without_antenna_r outer_pix_r .r with
            | .error e => .error e
            | .ok inner_pix_r =>
              .ok { outer_pix_l := outer_pix_l
                    inner_pix_l := (inner_pix_l.1, inner_pix_l.2 + outer_pix_l.2)
                    outer_pix_r := (outer_pix_r.1, outer_pix_r.2 + middle)
                    inner_pix_r := (inner_pix_r.1, inner_pix_r.2 + middle)
                    body_center := (middle_y, middle) }

/-! ### src/butterfly/binarization.py -/

/-- Does a background region touch the border of the `h × w` frame?  A
4-connected background component can reach the outside of the array iff
it has a pixel on the border. -/
def touchesBorder (h w : Nat) (R : Region) : Bool :=
  R.coords.any fun p =>
    decide (p.1 = 0) || decide (p.1 + 1 = h) || decide (p.2 = 0) ||
      decide (p.2 + 1 = w)

/-- `scipy.ndimage.binary_fill_holes` with its default 4-connected
structure: foreground plus every background component that does not
reach the border (scipy floods the complement from outside the array;
with the cross structure, exactly the border-touching components are
reached). -/
def fill_holes (m : Mask) : Mask :=
  let holes := ((regionsOf (complement m)).filter fun R =>
    !touchesBorder (height m) (width m) R).map Region.coords
  mkGrid (height m) (width m) fun r c =>
    get m r c || holes.any fun coords => decide ((r, c) ∈ coords)

/-- `skimage.morphology.binary_erosion` with its default 4-connected
cross footprint; skimage calls `ndi.binary_erosion(..., border_value=True)`,
so out-of-bounds neighbours count as foreground. -/
def erode (m : Mask) : Mask :=
  mkGrid (height m) (width m) fun r c =>
    get m r c &&
      (decide (r = 0) || get m (r - 1) c) &&
      (decide (r + 1 = height m) || get m (r + 1) c) &&
      (decide (c = 0) || get m r (c - 1)) &&
      (decide (c + 1 = width m) || get m r (c + 1))

/-- The sub-window `binary[:top_ruler, int(width*0.5):]` that
`find_tags_edge` analyses (`int(w*0.5)` truncates, i.e. `w / 2`). -/
def tags_focus (binary : Mask) (top_ruler : Nat) : Mask :=
  (binary.take top_ruler).map (List.drop (width binary / 2))

/-- `binarization.find_tags_edge`.  Fills holes of the top-right
sub-window, erodes once, labels; sorts the regions by `bbox[3]`
descending then (stably) by area descending, keeps at most the first 3,
and returns `int(0.5*width + min(left_sides))` = `width/2 + min` of
their `bbox[1]`.  With zero regions, `np.min([])` raises an untyped
`ValueError`. -/
def find_tags_edge (binary : Mask) (top_ruler : Nat) : Except Err Nat :=
  let focus_filled_eroded := erode (fill_holes (tags_focus binary top_ruler))
  let sorted := sortByDesc Region.area
    (sortByDesc Region.bboxRight (regionsOf focus_filled_eroded))
  match (sorted.take 3).map Region.bboxLeft with
  | [] => .error .valueError
  | x :: xs => .ok (width binary / 2 + xs.foldl Nat.min x)

/-- An RGB pixel; intensities are embedded exactly as rationals. -/
abbrev RGB : Type := Rat × Rat × Rat

/-- A 3-channel image, row-major. -/
abbrev RGBImage : Type := List (List RGB)

/-- `image_rgb[:, :, 0]`. -/
def channel0 (img : RGBImage) : List (List Rat) :=
  img.map (List.map Prod.fst)

/-- Row-major flattening (`.ravel()`). -/
def flattenQ (g : List (List Rat)) : List Rat := g.flatten

/-- Minimum of a nonempty rational list (first argument is the head). -/
def listMinQ (x : Rat) (xs : List Rat) : Rat := xs.foldl min x

/-- Maximum of a nonempty rational list. -/
def listMaxQ (x : Rat) (xs : List Rat) : Rat := xs.foldl max x

/-- `skimage.filters.threshold_otsu(vals, nbins)` over the exact
rationals: histogram over `nbins` equal bins spanning `[min, max]`
(values on the top edge clamped into the last bin, as `np.histogram`
does), cumulative class weights and means, and the first index
maximising the inter-class variance; the threshold is that bin's
centre.  This follows the library's float-image histogram path (the
specification admits "8-bit or normalized float" inputs; for integer
dtypes skimage bins at integer values instead — no claim depends on the
non-degenerate threshold value).  A constant (or empty) input has no
bimodal split and raises an untyped `ValueError` ("expected to work
with images having more than one color"). -/
def threshold_otsu (vals : List Rat) (nbins : Nat) : Except Err Rat :=
  match vals with
  | [] => .error .valueError
  | v :: vs =>
    if vs.all fun x => decide (x = v) then .error .valueError
    else
      let mn := listMinQ v vs
      let mx := listMaxQ v vs
      let dl := (mx - mn) / (nbins : Rat)
      let binOf : Rat → Nat := fun x =>
        Nat.min (nbins - 1) (Rat.floor ((x - mn) / dl)).toNat
      let counts : List Nat := (List.range nbins).map fun i =>
        vals.countP fun x => decide (binOf x = i)
      let centers : List Rat := (List.range nbins).map fun (i : Nat) =>
        mn + dl * ((i : Rat) + 1 / 2)
      let weight1 : Nat → Nat := fun i => (counts.take (i + 1)).sum
      let weight2 : Nat → Nat := fun i => (counts.drop i).sum
      let csum1 : Nat → Rat := fun i =>
        (((counts.zip centers).take (i + 1)).map fun p =>
          (p.1 : Rat) * p.2).sum
      let csum2 : Nat → Rat := fun i =>
        (((counts.zip centers).drop i).map fun p => (p.1 : Rat) * p.2).sum
      let mean1 : Nat → Rat := fun i => csum1 i / (weight1 i : Rat)
      let mean2 : Nat → Rat := fun i => csum2 i / (weight2 i : Rat)
      let variance12 : Nat → Rat := fun i =>
        (weight1 i : Rat) * (weight2 (i + 1) : Rat) *
          (mean1 i - mean2 (i + 1)) ^ 2
      match argmaxBy variance12 (List.range (nbins - 1)) with
      | none => .error .valueError
      | some idx => .ok (centers.getD idx 0)

/-- `pixel > threshold` over a rational channel. -/
def grayGT (g : List (List Rat)) (t : Rat) : Mask :=
  g.map (List.map fun v => decide (t < v))

/-- The saturation channel of `skimage.color.rgb2hsv`:
`s = (max - min) / max`, and `0` where the channel spread is zero. -/
def satPix (p : RGB) : Rat :=
  let mx := max p.1 (max p.2.1 p.2.2)
  let mn := min p.1 (min p.2.1 p.2.2)
  if mx - mn = 0 then 0 else (mx - mn) / mx

/-- `color.rgb2hsv(bfly_rgb)[:, :, 1]`. -/
def satChannel (img : RGBImage) : List (List Rat) :=
  img.map (List.map satPix)

/-- `skimage.exposure.rescale_intensity(x, out_range=(0, 255))` with the
default `in_range='image'`: affinely maps `[min, max]` onto `[0, 255]`;
when the image is constant (`imax == imin`) skimage just clips the
values into the output range. -/
def rescale255 (g : List (List Rat)) : List (List Rat) :=
  match flattenQ g with
  | [] => g
  | v :: vs =>
    let mn := listMinQ v vs
    let mx := listMaxQ v vs
    if mx = mn then g.map (List.map fun x => min 255 (max 0 x))
    else g.map (List.map fun x => (x - mn) / (mx - mn) * 255)

/-- `binarization.main` (the Binarizer), without the joblib memoization
wrapper: first Otsu pass (60 bins) on channel 0, tags-edge detection on
that mask, crop to `[:top_ruler, :label_edge]`, saturation channel,
rescale to `[0, 255]`, second Otsu pass (default 256 bins), binarize. -/
def binarization_main (image_rgb : RGBImage) (top_ruler : Nat) :
    Except Err Mask :=
  let image_gray := channel0 image_rgb
  match threshold_otsu (flattenQ image_gray) 60 with
  | .error e => .error e
  | .ok thresh_rgb =>
    let binary := grayGT image_gray thresh_rgb
    match find_tags_edge binary top_ruler with
    | .error e => .error e
    | .ok label_edge =>
      let bfly_rgb := (image_rgb.take top_ruler).map (List.take label_edge)
      let rescaled := rescale255 (satChannel bfly_rgb)
      match threshold_otsu (flattenQ rescaled) 256 with
      | .error e => .error e
      | .ok thresh_hsv => .ok (grayGT rescaled thresh_hsv)

/-! ### Shared facts about the embedded operations -/

theorem height_mkGrid (h w : Nat) (f : Nat → Nat → Bool) :
    height (mkGrid h w f) = h := by
  simp [height, mkGrid]

theorem width_mkGrid {h : Nat} (w : Nat) (f : Nat → Nat → Bool)
    (hh : 0 < h) : width (mkGrid h w f) = w := by
  match h, hh with
  | h' + 1, _ =>
    rw [mkGrid, width, List.range_succ_eq_map]
    simp

theorem height_complement (m : Mask) : height (complement m) = height m := by
  simp [height, complement]

theorem width_complement (m : Mask) : width (complement m) = width m := by
  match m with
  | [] => rfl
  | r :: rest => simp [width, complement]

theorem height_map_rows (m : Mask) (f : List Bool → List Bool) :
    height (m.map f) = height m := by
  simp [height]

theorem width_map_drop (m : Mask) (k : Nat) :
    width (m.map (List.drop k)) = width m - k := by
  match m with
  | [] => simp [width]
  | r :: rest => simp [width]

theorem width_map_take (m : Mask) (k : Nat) :
    width (m.map (List.take k)) = Nat.min k (width m) := by
  match m with
  | [] => simp [width]
  | r :: rest => simp [width]

theorem height_take (m : Mask) (t : Nat) :
    height (m.take t) = Nat.min t (height m) := by
  simp [height]

theorem dilate35_height (m : Mask) : height (dilate35 m) = height m := by
  have step : ∀ x : Mask, height (dilateOnce x) = height x := fun x => by
    unfold dilateOnce; rw [height_mkGrid]
  unfold dilate35
  induction (35 : Nat) with
  | zero => rfl
  | succ n ih => rw [Function.iterate_succ_apply', step, ih]

theorem dilate35_width {m : Mask} (hh : 0 < height m) :
    width (dilate35 m) = width m := by
  have hstep : ∀ x : Mask, 0 < height x →
      width (dilateOnce x) = width x ∧ height (dilateOnce x) = height x :=
    fun x hx => ⟨by unfold dilateOnce; rw [width_mkGrid _ _ hx],
      by unfold dilateOnce; rw [height_mkGrid]⟩
  unfold dilate35
  induction (35 : Nat) with
  | zero => rfl
  | succ n ih =>
    have hhn : 0 < height (dilateOnce^[n] m) := by
      clear ih
      induction n with
      | zero => exact hh
      | succ k ihk =>
        rw [Function.iterate_succ_apply', (hstep _ ihk).2]; exact ihk
    rw [Function.iterate_succ_apply', (hstep _ hhn).1, ih]

theorem regionsOf_pos {m : Mask} {R : Region} (hR : R ∈ regionsOf m) :
    0 < height m ∧ 0 < width m := by
  have hne := regionsOf_coords_ne_nil hR
  match hc : R.coords with
  | [] => exact absurd hc hne
  | p :: _ =>
    have := regionsOf_coords_bounds hR p (by rw [hc]; exact List.mem_cons_self _ _)
    exact ⟨Nat.lt_of_le_of_lt (Nat.zero_le _) this.1,
      Nat.lt_of_le_of_lt (Nat.zero_le _) this.2⟩

theorem remove_antenna_dims (m : Mask) :
    height (remove_antenna m) = height m ∧
      width (remove_antenna m) = width m := by
  unfold remove_antenna
  split
  · rename_i R1 R2 rest heq
    have hR1 : R1 ∈ regionsOf (complement m) := by
      have : R1 ∈ sortByDesc Region.area (regionsOf (complement m)) := by
        rw [heq]; exact List.mem_cons_self _ _
      exact sortByDesc_mem Region.area this
    have hpos := regionsOf_pos hR1
    rw [height_complement, width_complement] at hpos
    exact ⟨height_mkGrid _ _ _, width_mkGrid _ _ hpos.1⟩
  · exact ⟨rfl, rfl⟩

theorem detect_outer_pix_ok {m : Mask} {c : Int × Int} {p : Point}
    (h : detect_outer_pix m c = .ok p) :
    p.1 < height m ∧ p.2 < width m := by
  unfold detect_outer_pix at h
  split at h
  · exact absurd h (by simp)
  · rename_i R hargR
    split at h
    · exact absurd h (by simp)
    · rename_i q hargq
      have hqp : q = p := by simpa using h
      have hqmem : q ∈ R.coords := argmaxBy_mem hargq
      have hRmem : R ∈ regionsOf m := argmaxBy_mem hargR
      exact hqp ▸ regionsOf_coords_bounds hRmem q hqmem

theorem detect_inner_pix_ok {m : Mask} {o : Point} {s : Side} {p : Point}
    (h : detect_inner_pix m o s = .ok p) :
    (p.1 < height (inner_focus m o s) ∧ p.2 < width (inner_focus m o s)) ∧
      0 < height (inner_focus m o s) ∧ 0 < width (inner_focus m o s) := by
  unfold detect_inner_pix at h
  split at h
  · exact absurd h (by simp)
  · rename_i R rest heq
    have hRmem : R ∈ regionsOf (complement (inner_focus m o s)) := by
      rw [heq]; exact List.mem_cons_self _ _
    have hpos := regionsOf_pos hRmem
    rw [height_complement, width_complement] at hpos
    have hbound : ∀ q ∈ R.coords,
        q.1 < height (inner_focus m o s) ∧ q.2 < width (inner_focus m o s) := by
      intro q hq
      have := regionsOf_coords_bounds hRmem q hq
      rwa [height_complement, width_complement] at this
    have hmem : p ∈ R.coords := by
      rcases s with _ | _ <;> simp only at h
      · split at h
        · exact absurd h (by simp)
        · rename_i q hargq
          have hqp : q = p := by simpa using h
          exact hqp ▸ List.mem_of_mem_filter (argmaxBy_mem hargq)
      · split at h
        · exact absurd h (by simp)
        · rename_i q hargq
          have hqp : q = p := by simpa using h
          exact hqp ▸ List.mem_of_mem_filter (argminBy_mem hargq)
    exact ⟨hbound p hmem, hpos⟩

theorem list_mul_sum (a : Nat) (f : Nat → Nat) (l : List Nat) :
    (l.map fun c => a * f c).sum = a * (l.map f).sum := by
  induction l with
  | nil => simp
  | cons x xs ih => simp [ih, Nat.mul_add]

theorem split_picture_ok {binary : Mask} {mid : Nat}
    (h : split_picture binary = .ok mid) :
    0 < totalFg binary ∧ mid = weightedFg binary / totalFg binary ∧
      mid < width binary := by
  unfold split_picture at h
  split at h
  · exact absurd h (by simp)
  · rename_i htot
    have hpos : 0 < totalFg binary := Nat.pos_of_ne_zero htot
    have hmid : mid = weightedFg binary / totalFg binary := by simpa using h.symm
    have hw : 0 < width binary := by
      by_contra hw
      have hw0 : width binary = 0 := Nat.eq_zero_of_not_pos hw
      have : totalFg binary = 0 := by simp [totalFg, hw0]
      exact htot this
    have hle : weightedFg binary ≤ (width binary - 1) * totalFg binary := by
      unfold weightedFg totalFg
      rw [← list_mul_sum (width binary - 1) (colsum binary) (List.range (width binary))]
      refine List.sum_le_sum ?_
      intro c hc
      exact Nat.mul_le_mul_right _ (by
        have := List.mem_range.mp hc; omega)
    have : mid ≤ width binary - 1 := by
      rw [hmid]
      calc weightedFg binary / totalFg binary
          ≤ (width binary - 1) * totalFg binary / totalFg binary :=
            Nat.div_le_div_right hle
        _ = width binary - 1 := Nat.mul_div_cancel _ hpos
    exact ⟨hpos, hmid, by omega⟩

theorem sum_div_length_lt {l : List Nat} {h : Nat}
    (hne : l ≠ []) (hb : ∀ x ∈ l, x < h) : l.sum / l.length < h := by
  have hlen : 0 < l.length := List.length_pos.mpr hne
  have hh : 0 < h := by
    match l, hne with
    | x :: xs, _ => exact Nat.lt_of_le_of_lt (Nat.zero_le _) (hb x (List.mem_cons_self _ _))
  have hsum : l.sum ≤ l.length * (h - 1) := by
    have := List.sum_le_card_nsmul l (h - 1) fun x hx => by
      have := hb x hx; omega
    simpa [smul_eq_mul] using this
  calc l.sum / l.length ≤ l.length * (h - 1) / l.length := Nat.div_le_div_right hsum
    _ = h - 1 := Nat.mul_div_cancel_left _ hlen
    _ < h := by omega

set_option maxRecDepth 100000

deriving instance DecidableEq for Except

/-! ### Claims -/

/-- C1.  For every half-mask with at least one foreground region and every
reference center point, the Outer Pixel Detector returns a pixel belonging
to the largest-area 4-connected foreground region, and that pixel's
Euclidean distance to the center is the maximum over all pixels of that
region (equal to a brute-force scan over all the region's pixels; distances
are compared via their squares, which `sqrt`-monotonicity makes
equivalent). -/
theorem detect_outer_pix_spec (half_binary : Mask) (center : Int × Int)
    (hne : regionsOf half_binary ≠ []) :
    ∃ R p, detect_outer_pix half_binary center = .ok p ∧
      R ∈ regionsOf half_binary ∧
      (∀ R2 ∈ regionsOf half_binary, R2.area ≤ R.area) ∧
      p ∈ R.coords ∧ get half_binary p.1 p.2 = true ∧
      ∀ q ∈ R.coords, dist2 center q ≤ dist2 center p := by
  obtain ⟨R, hR⟩ := argmaxBy_eq_some Region.area hne
  have hRmem : R ∈ regionsOf half_binary := argmaxBy_mem hR
  have hcne : R.coords ≠ [] := regionsOf_coords_ne_nil hRmem
  obtain ⟨p, hp⟩ := argmaxBy_eq_some (dist2 center) hcne
  have hpmem : p ∈ R.coords := argmaxBy_mem hp
  refine ⟨R, p, ?_, hRmem, argmaxBy_le hR, hpmem,
    regionsOf_coords_fg hRmem p hpmem, argmaxBy_le hp⟩
  unfold detect_outer_pix
  rw [hR]
  simp only
  rw [hp]

/-- C1 witness: the theorem applied to the one-pixel mask `[[true]]` with
center `(0, 0)`. -/
theorem detect_outer_pix_spec_witness :
    regionsOf [[true]] ≠ [] ∧
      ∃ R p, detect_outer_pix [[true]] ((0 : Int), (0 : Int)) = .ok p ∧
        R ∈ regionsOf [[true]] ∧
        (∀ R2 ∈ regionsOf [[true]], R2.area ≤ R.area) ∧
        p ∈ R.coords ∧ get [[true]] p.1 p.2 = true ∧
        ∀ q ∈ R.coords, dist2 (0, 0) q ≤ dist2 (0, 0) p :=
  ⟨by decide, detect_outer_pix_spec [[true]] (0, 0) (by decide)⟩

/-- C8.  For every half-mask, wingtip point and side flag such that the
inverted search window (rows `[0, 0.75*height)`; columns `[wingtip_col, width)`
for the left side, `[0, wingtip_col)` for the right side) contains at least
one background region, the Inner Pixel Detector returns, within the
first-ordered region of the inverted window, a coordinate at the maximum
row, breaking ties by maximum column for the left side and minimum column
for the right side, expressed relative to the search window's own origin
(the returned point is *not* translated by the window's column offset). -/
theorem detect_inner_pix_spec (half_binary : Mask) (outer_pix : Point)
    (side : Side)
    (hne : regionsOf (complement (inner_focus half_binary outer_pix side)) ≠ []) :
    ∃ R rest p,
      regionsOf (complement (inner_focus half_binary outer_pix side)) =
        R :: rest ∧
      detect_inner_pix half_binary outer_pix side = .ok p ∧
      p ∈ R.coords ∧
      (∀ q ∈ R.coords, q.1 ≤ p.1) ∧
      (∀ q ∈ R.coords, q.1 = p.1 →
        (side = .l → q.2 ≤ p.2) ∧ (side = .r → p.2 ≤ q.2)) := by
  match hr : regionsOf (complement (inner_focus half_binary outer_pix side)) with
  | [] => exact absurd hr hne
  | R :: rest =>
    have hRmem : R ∈ regionsOf (complement (inner_focus half_binary outer_pix side)) := by
      rw [hr]; exact List.mem_cons_self _ _
    have hcne : R.coords ≠ [] := regionsOf_coords_ne_nil hRmem
    have hmapne : R.coords.map Prod.fst ≠ [] := by
      simpa using hcne
    have hymax : listMax (R.coords.map Prod.fst) ∈ R.coords.map Prod.fst :=
      listMax_mem hmapne
    obtain ⟨q0, hq0mem, hq0⟩ := List.mem_map.mp hymax
    have hselne :
        R.coords.filter (fun q => decide (q.1 = listMax (R.coords.map Prod.fst))) ≠ [] := by
      refine List.ne_nil_of_mem (List.mem_filter.mpr ⟨hq0mem, ?_⟩)
      simp [hq0]
    have hselmem : ∀ z ∈ R.coords.filter
        (fun q => decide (q.1 = listMax (R.coords.map Prod.fst))),
        z ∈ R.coords ∧ z.1 = listMax (R.coords.map Prod.fst) := by
      intro z hz
      refine ⟨List.mem_of_mem_filter hz, ?_⟩
      have := List.of_mem_filter hz
      simpa using this
    have hselall : ∀ z ∈ R.coords, z.1 = listMax (R.coords.map Prod.fst) →
        z ∈ R.coords.filter
          (fun q => decide (q.1 = listMax (R.coords.map Prod.fst))) := by
      intro z hz hz1
      exact List.mem_filter.mpr ⟨hz, by simp [hz1]⟩
  -- the argmax / argmin over the maximal-row selection
    cases side with
    | l =>
      obtain ⟨p, hp⟩ := argmaxBy_eq_some (Prod.snd (β := Nat)) hselne
      obtain ⟨hpmem, hp1⟩ := hselmem p (argmaxBy_mem hp)
      refine ⟨R, rest, p, rfl, ?_, hpmem, ?_, ?_⟩
      · unfold detect_inner_pix
        rw [hr]
        simp only
        rw [hp]
      · intro q hq
        rw [hp1]
        exact le_listMax (List.mem_map.mpr ⟨q, hq, rfl⟩)
      · intro q hq hq1
        refine ⟨fun _ => ?_, fun hlr => Side.noConfusion hlr⟩
        exact argmaxBy_le hp q (hselall q hq (hq1.trans hp1))
    | r =>
      obtain ⟨p, hp⟩ := argminBy_eq_some (Prod.snd (β := Nat)) hselne
      obtain ⟨hpmem, hp1⟩ := hselmem p (argminBy_mem hp)
      refine ⟨R, rest, p, rfl, ?_, hpmem, ?_, ?_⟩
      · unfold detect_inner_pix
        rw [hr]
        simp only
        rw [hp]
      · intro q hq
        rw [hp1]
        exact le_listMax (List.mem_map.mpr ⟨q, hq, rfl⟩)
      · intro q hq hq1
        refine ⟨fun hlr => Side.noConfusion hlr, fun _ => ?_⟩
        exact argminBy_le hp q (hselall q hq (hq1.trans hp1))

/-- C8 witness: the theorem applied to a 4×2 half-mask whose top-left
pixel is background, wingtip `(3, 0)`, left side. -/
theorem detect_inner_pix_spec_witness :
    regionsOf (complement (inner_focus
        [[false, true], [true, true], [true, true], [true, true]]
        (3, 0) Side.l)) ≠ [] ∧
      ∃ R rest p,
        regionsOf (complement (inner_focus
            [[false, true], [true, true], [true, true], [true, true]]
            (3, 0) Side.l)) = R :: rest ∧
        detect_inner_pix
            [[false, true], [true, true], [true, true], [true, true]]
            (3, 0) Side.l = .ok p ∧
        p ∈ R.coords ∧
        (∀ q ∈ R.coords, q.1 ≤ p.1) ∧
        (∀ q ∈ R.coords, q.1 = p.1 →
          (Side.l = Side.l → q.2 ≤ p.2) ∧ (Side.l = Side.r → p.2 ≤ q.2)) :=
  ⟨by decide, detect_inner_pix_spec
    [[false, true], [true, true], [true, true], [true, true]]
    (3, 0) Side.l (by decide)⟩

theorem width_take_pos (m : Mask) {t : Nat} (ht : 0 < t) :
    width (m.take t) = width m := by
  match m, t, ht with
  | [], t, _ => simp [width]
  | r :: rest, t + 1, _ => simp [width]

/-- C9.  For every silhouette mask on which the Landmark Orchestrator
returns a result, the returned mapping has exactly the five keys
`outer_pix_l`, `inner_pix_l`, `outer_pix_r`, `inner_pix_r`, `body_center`
(the fields of `PointsInterest`), and every returned coordinate is a
(row, col) point lying within the bounds of the silhouette mask. -/
theorem tracing_main_inbounds (binary : Mask) (lm : PointsInterest)
    (h : tracing_main binary = .ok lm) :
    (lm.outer_pix_l.1 < height binary ∧ lm.outer_pix_l.2 < width binary) ∧
    (lm.inner_pix_l.1 < height binary ∧ lm.inner_pix_l.2 < width binary) ∧
    (lm.outer_pix_r.1 < height binary ∧ lm.outer_pix_r.2 < width binary) ∧
    (lm.inner_pix_r.1 < height binary ∧ lm.inner_pix_r.2 < width binary) ∧
    (lm.body_center.1 < height binary ∧ lm.body_center.2 < width binary) := by
  unfold tracing_main at h
  split at h
  · exact absurd h (by simp)
  rename_i middle hsplit
  simp only at h
  split at h
  · exact absurd h (by simp)
  rename_i hfg
  split at h
  · exact absurd h (by simp)
  rename_i outer_l houtl
  split at h
  · exact absurd h (by simp)
  rename_i inner_l0 hinnl
  split at h
  · exact absurd h (by simp)
  rename_i outer_r hout_r
  split at h
  · exact absurd h (by simp)
  rename_i inner_r0 hinn_r
  have hlm : lm = { outer_pix_l := outer_l
                    inner_pix_l := (inner_l0.1, inner_l0.2 + outer_l.2)
                    outer_pix_r := (outer_r.1, outer_r.2 + middle)
                    inner_pix_r := (inner_r0.1, inner_r0.2 + middle)
                    body_center :=
                      ((List.filter (fun r => get binary r middle)
                          (List.range (height binary))).sum /
                        (List.filter (fun r => get binary r middle)
                          (List.range (height binary))).length, middle) } := by
    injection h with h'
    exact h'.symm
  obtain ⟨-, -, hmidlt⟩ := split_picture_ok hsplit
  -- the midline column's row set is nonempty and bounded
  have hfgne : (List.range (height binary)).filter
      (fun r => get binary r middle) ≠ [] := by
    intro hc
    rw [hc] at hfg
    exact hfg rfl
  have hmy : (List.filter (fun r => get binary r middle)
        (List.range (height binary))).sum /
      (List.filter (fun r => get binary r middle)
        (List.range (height binary))).length < height binary := by
    refine sum_div_length_lt hfgne ?_
    intro x hx
    exact List.mem_range.mp (List.mem_of_mem_filter hx)
  -- dimensions of the left half after antenna removal
  have hwl := remove_antenna_dims (binary.map (List.take middle))
  have hwlh : height (remove_antenna (binary.map (List.take middle))) =
      height binary := by
    rw [hwl.1, height_map_rows]
  have hwlw : width (remove_antenna (binary.map (List.take middle))) =
      middle := by
    rw [hwl.2, width_map_take]
    exact Nat.min_eq_left (Nat.le_of_lt hmidlt)
  -- dimensions of the right half after antenna removal
  have hwr := remove_antenna_dims (binary.map (List.drop middle))
  have hwrh : height (remove_antenna (binary.map (List.drop middle))) =
      height binary := by
    rw [hwr.1, height_map_rows]
  have hwrw : width (remove_antenna (binary.map (List.drop middle))) =
      width binary - middle := by
    rw [hwr.2, width_map_drop]
  -- outer pixels
  have houtlb := detect_outer_pix_ok houtl
  rw [hwlh, hwlw] at houtlb
  have houtrb := detect_outer_pix_ok hout_r
  rw [hwrh, hwrw] at houtrb
  -- left inner pixel: bounds relative to the left search window
  have hinnlb := detect_inner_pix_ok hinnl
  have hflh : height (inner_focus
      (remove_antenna (binary.map (List.take middle))) outer_l .l) =
      Nat.min (3 * height (remove_antenna (binary.map (List.take middle))) / 4)
        (height (remove_antenna (binary.map (List.take middle)))) := by
    rw [inner_focus]
    rw [height_map_rows, height_take]
  have hlbpos : 0 < 3 * height (remove_antenna (binary.map (List.take middle))) / 4 := by
    have := hinnlb.2.1
    rw [hflh] at this
    exact (lt_min_iff.mp this).1
  have hflw : width (inner_focus
      (remove_antenna (binary.map (List.take middle))) outer_l .l) =
      middle - outer_l.2 := by
    rw [inner_focus]
    rw [width_map_drop, width_take_pos _ hlbpos, hwlw]
  have hinnl1 : inner_l0.1 < height binary := by
    have := hinnlb.1.1
    rw [hflh] at this
    have h2 := (lt_min_iff.mp this).2
    rwa [hwlh] at h2
  have hinnl2 : inner_l0.2 + outer_l.2 < width binary := by
    have := hinnlb.1.2
    rw [hflw] at this
    omega
  -- right inner pixel: bounds relative to the right search window
  have hinnrb := detect_inner_pix_ok hinn_r
  have hfrh : height (inner_focus
      (remove_antenna (binary.map (List.drop middle))) outer_r .r) =
      Nat.min (3 * height (remove_antenna (binary.map (List.drop middle))) / 4)
        (height (remove_antenna (binary.map (List.drop middle)))) := by
    rw [inner_focus]
    rw [height_map_rows, height_take]
  have hrbpos : 0 < 3 * height (remove_antenna (binary.map (List.drop middle))) / 4 := by
    have := hinnrb.2.1
    rw [hfrh] at this
    exact (lt_min_iff.mp this).1
  have hfrw : width (inner_focus
      (remove_antenna (binary.map (List.drop middle))) outer_r .r) =
      Nat.min outer_r.2 (width binary - middle) := by
    rw [inner_focus]
    rw [width_map_take, width_take_pos _ hrbpos, hwrw]
  have hinnr1 : inner_r0.1 < height binary := by
    have := hinnrb.1.1
    rw [hfrh] at this
    have h2 := (lt_min_iff.mp this).2
    rwa [hwrh] at h2
  have hinnr2 : inner_r0.2 + middle < width binary := by
    have := hinnrb.1.2
    rw [hfrw] at this
    have h1 : inner_r0.2 < outer_r.2 := lt_of_lt_of_le this (Nat.min_le_left _ _)
    have h2 := houtrb.2
    omega
  subst hlm
  dsimp only
  refine ⟨⟨houtlb.1, by have := houtlb.2; omega⟩,
    ⟨hinnl1, hinnl2⟩,
    ⟨houtrb.1, by have := houtrb.2; omega⟩,
    ⟨hinnr1, hinnr2⟩,
    ⟨hmy, hmidlt⟩⟩

/-- A concrete 5×5 silhouette on which the whole orchestrator succeeds. -/
def maskW : Mask :=
  [[false, false, false, false, false],
   [false, true, true, true, false],
   [true, true, true, true, true],
   [true, true, true, true, true],
   [true, true, true, true, true]]

/-- The landmark set `tracing_main` computes on `maskW`. -/
def pointsW : PointsInterest :=
  { outer_pix_l := (4, 0)
    inner_pix_l := (1, 0)
    outer_pix_r := (4, 4)
    inner_pix_r := (0, 2)
    body_center := (2, 2) }

/-- C9 witness: the theorem applied to the successful run on `maskW`. -/
theorem tracing_main_inbounds_witness :
    tracing_main maskW = .ok pointsW ∧
      ((pointsW.outer_pix_l.1 < height maskW ∧ pointsW.outer_pix_l.2 < width maskW) ∧
       (pointsW.inner_pix_l.1 < height maskW ∧ pointsW.inner_pix_l.2 < width maskW) ∧
       (pointsW.outer_pix_r.1 < height maskW ∧ pointsW.outer_pix_r.2 < width maskW) ∧
       (pointsW.inner_pix_r.1 < height maskW ∧ pointsW.inner_pix_r.2 < width maskW) ∧
       (pointsW.body_center.1 < height maskW ∧ pointsW.body_center.2 < width maskW)) :=
  ⟨by decide, tracing_main_inbounds maskW pointsW (by decide)⟩

theorem getD_false_of_all_false {row : List Bool}
    (h : ∀ b ∈ row, b = false) (c : Nat) : row.getD c false = false := by
  induction row generalizing c with
  | nil => cases c <;> rfl
  | cons b bs ih =>
    cases c with
    | zero => simpa using h b (List.mem_cons_self _ _)
    | succ c' =>
      rw [List.getD_cons_succ]
      exact ih (fun x hx => h x (List.mem_cons_of_mem _ hx)) c'

/-- C10.  For every silhouette mask containing no foreground pixels at all,
the Landmark Orchestrator fails before producing any landmark: the
`split_picture` normalisation divides by a zero total, the centroid is
`nan`, and `int(nan)` raises an untyped `ValueError`; the failure is not
one of the typed domain errors of the specification's taxonomy. -/
theorem tracing_main_all_background (binary : Mask)
    (h : ∀ row ∈ binary, ∀ b ∈ row, b = false) :
    tracing_main binary = .error .valueError ∧
      Err.valueError ≠ Err.noRegionsFound ∧
      Err.valueError ≠ Err.thresholdingFailed := by
  have hcol : ∀ c, colsum binary c = 0 := by
    intro c
    unfold colsum
    rw [List.sum_eq_zero]
    intro x hx
    rcases List.mem_map.mp hx with ⟨row, hrow, rfl⟩
    rw [getD_false_of_all_false (h row hrow) c]
    rfl
  have htot : totalFg binary = 0 := by
    unfold totalFg
    rw [List.sum_eq_zero]
    intro x hx
    rcases List.mem_map.mp hx with ⟨c, _, rfl⟩
    exact hcol c
  have hsp : split_picture binary = .error .valueError := by
    unfold split_picture
    rw [if_pos htot]
  refine ⟨?_, by decide, by decide⟩
  unfold tracing_main
  rw [hsp]

/-- C10 witness: the theorem applied to the all-background 2×2 mask. -/
theorem tracing_main_all_background_witness :
    (∀ row ∈ ([[false, false], [false, false]] : Mask), ∀ b ∈ row, b = false) ∧
      (tracing_main [[false, false], [false, false]] = .error .valueError ∧
        Err.valueError ≠ Err.noRegionsFound ∧
        Err.valueError ≠ Err.thresholdingFailed) :=
  ⟨by decide, tracing_main_all_background [[false, false], [false, false]]
    (by decide)⟩

/-- The expectation of the column index under the per-column
foreground-count distribution, following the specification's words
(§4.4: "normalizes to a probability distribution over column indices,
computes its expectation"), over exact rationals. -/
def centroidQ (binary : Mask) : Rat :=
  ((List.range (width binary)).map fun (c : Nat) =>
    (c : Rat) * ((colsum binary c : Rat) / (totalFg binary : Rat))).sum

/-- Modelled from the spec (§4.4): the Body Splitter as the claim words
it, *rounding the expectation to the nearest integer column* (half
rounds up): `⌊W/T + 1/2⌋ = ⌊(2*W + T) / (2*T)⌋`, computed exactly over
the naturals.  This is the comparison definition for claim C2; the
code's `split_picture` truncates (`int(...)`) instead of rounding. -/
def split_picture_nearest (binary : Mask) : Except Err Nat :=
  if totalFg binary = 0 then .error .valueError
  else .ok ((2 * weightedFg binary + totalFg binary) / (2 * totalFg binary))

theorem centroidQ_eq (binary : Mask) :
    centroidQ binary = (weightedFg binary : Rat) / (totalFg binary : Rat) := by
  unfold centroidQ weightedFg
  have h1 : ∀ c : Nat,
      (c : Rat) * ((colsum binary c : Rat) / (totalFg binary : Rat)) =
        ((c * colsum binary c : Nat) : Rat) * ((totalFg binary : Rat))⁻¹ := by
    intro c
    push_cast
    ring
  rw [List.map_congr_left fun c _ => h1 c, List.sum_map_mul_right,
    Nat.cast_list_sum, List.map_map, div_eq_mul_inv]
  rfl

/-- C2 counterexample: on the 4×2 mask with column sums `(1, 3)` the
expectation is `3/4`; the code truncates to column `0`, while the
claimed round-to-nearest behaviour would give column `1`. -/
theorem split_picture_truncates :
    split_picture [[true, true], [false, true], [false, true], [false, true]] =
        .ok 0 ∧
      split_picture_nearest
          [[true, true], [false, true], [false, true], [false, true]] =
        .ok 1 ∧
      split_picture [[true, true], [false, true], [false, true], [false, true]] ≠
        split_picture_nearest
          [[true, true], [false, true], [false, true], [false, true]] := by
  refine ⟨by decide, by decide, by decide⟩

/-- C2 amended.  For every silhouette mask with at least one foreground
pixel, the Body Splitter returns the expectation of the column index
under the per-column foreground-count distribution *truncated toward
zero* (the floor, since the expectation is nonnegative), not rounded to
the nearest integer column. -/
theorem split_picture_floor_spec (binary : Mask) (h : 0 < totalFg binary) :
    ∃ mid, split_picture binary = .ok mid ∧
      (mid : Rat) ≤ centroidQ binary ∧ centroidQ binary < (mid : Rat) + 1 := by
  have hT : (0 : Rat) < (totalFg binary : Rat) := by
    exact_mod_cast h
  refine ⟨weightedFg binary / totalFg binary, ?_, ?_, ?_⟩
  · unfold split_picture
    rw [if_neg (Nat.pos_iff_ne_zero.mp h)]
  · rw [centroidQ_eq, le_div_iff₀ hT]
    have : (weightedFg binary / totalFg binary) * totalFg binary ≤
        weightedFg binary := Nat.div_mul_le_self _ _
    exact_mod_cast this
  · rw [centroidQ_eq, div_lt_iff₀ hT]
    have hm := Nat.div_add_mod (weightedFg binary) (totalFg binary)
    have hr := Nat.mod_lt (weightedFg binary) h
    have hlt : weightedFg binary <
        (weightedFg binary / totalFg binary + 1) * totalFg binary := by
      have hexp : (weightedFg binary / totalFg binary + 1) * totalFg binary =
          totalFg binary * (weightedFg binary / totalFg binary) +
            totalFg binary := by ring
      omega
    exact_mod_cast hlt

/-- C2 amended witness: the floor theorem applied to the counterexample
mask (expectation `3/4`, result column `0`). -/
theorem split_picture_floor_spec_witness :
    0 < totalFg [[true, true], [false, true], [false, true], [false, true]] ∧
      ∃ mid, split_picture
          [[true, true], [false, true], [false, true], [false, true]] =
          .ok mid ∧
        (mid : Rat) ≤ centroidQ
          [[true, true], [false, true], [false, true], [false, true]] ∧
        centroidQ [[true, true], [false, true], [false, true], [false, true]] <
          (mid : Rat) + 1 :=
  ⟨by decide, split_picture_floor_spec
    [[true, true], [false, true], [false, true], [false, true]] (by decide)⟩

/-- C3.  For every binary mask and `top_ruler` such that the top-right
sub-window, after hole-filling and one erosion, contains at least one
4-connected region, the Tag-Edge Finder returns `width/2` plus the
minimum left-bounding-box column taken over the (at most 3) regions of
largest area, ordered by area descending (fewer than 3 regions: it uses
however many are present). -/
theorem find_tags_edge_spec (binary : Mask) (top_ruler : Nat)
    (hne : regionsOf (erode (fill_holes (tags_focus binary top_ruler))) ≠ []) :
    ∃ sel others,
      (regionsOf (erode (fill_holes (tags_focus binary top_ruler)))).Perm
        (sel ++ others) ∧
      sel.length =
        Nat.min 3 (regionsOf (erode (fill_holes (tags_focus binary top_ruler)))).length ∧
      sel.Pairwise (fun a b => b.area ≤ a.area) ∧
      (∀ R ∈ sel, ∀ R2 ∈ others, R2.area ≤ R.area) ∧
      find_tags_edge binary top_ruler =
        .ok (width binary / 2 + listMin (sel.map Region.bboxLeft)) := by
  have hperm : (sortByDesc Region.area (sortByDesc Region.bboxRight
      (regionsOf (erode (fill_holes (tags_focus binary top_ruler)))))).Perm
      (regionsOf (erode (fill_holes (tags_focus binary top_ruler)))) :=
    (sortByDesc_perm _ _).trans (sortByDesc_perm _ _)
  set s := sortByDesc Region.area (sortByDesc Region.bboxRight
    (regionsOf (erode (fill_holes (tags_focus binary top_ruler))))) with hs
  have hsne : s ≠ [] := by
    intro hc
    rw [hc] at hperm
    exact hne (hperm.symm.eq_nil)
  have hpw : s.Pairwise (fun a b => b.area ≤ a.area) := by
    rw [hs]
    exact sortByDesc_pairwise Region.area _
  have hsplit3 : s = s.take 3 ++ s.drop 3 := (List.take_append_drop 3 s).symm
  have hcross := (List.pairwise_append.mp (hsplit3 ▸ hpw)).2.2
  refine ⟨s.take 3, s.drop 3, ?_, ?_, ?_, ?_, ?_⟩
  · rw [← hsplit3]
    exact hperm.symm
  · rw [List.length_take, hperm.length_eq]
  · exact hpw.sublist (List.take_sublist 3 s)
  · exact fun R hR R2 hR2 => hcross R hR R2 hR2
  · have htne : (s.take 3).map Region.bboxLeft ≠ [] := by
      simp only [ne_eq, List.map_eq_nil_iff, List.take_eq_nil_iff]
      push_neg
      exact ⟨by omega, hsne⟩
    match hm : (s.take 3).map Region.bboxLeft with
    | [] => exact absurd hm htne
    | x :: xs =>
      unfold find_tags_edge
      simp only
      rw [← hs, hm]
      have hlm : listMin (x :: xs) = xs.foldl Nat.min x := rfl
      rw [hlm]

/-- C3 witness: the theorem applied to the all-true 2×2 mask with
`top_ruler = 2` (one region survives erosion; the edge column is
`2/2 + 0 = 1`). -/
theorem find_tags_edge_spec_witness :
    regionsOf (erode (fill_holes (tags_focus [[true, true], [true, true]] 2))) ≠ [] ∧
      ∃ sel others,
        (regionsOf (erode (fill_holes (tags_focus [[true, true], [true, true]] 2)))).Perm
          (sel ++ others) ∧
        sel.length = Nat.min 3
          (regionsOf (erode (fill_holes (tags_focus [[true, true], [true, true]] 2)))).length ∧
        sel.Pairwise (fun a b => b.area ≤ a.area) ∧
        (∀ R ∈ sel, ∀ R2 ∈ others, R2.area ≤ R.area) ∧
        find_tags_edge [[true, true], [true, true]] 2 =
          .ok (width [[true, true], [true, true]] / 2 +
            listMin (sel.map Region.bboxLeft)) :=
  ⟨by decide, find_tags_edge_spec [[true, true], [true, true]] 2 (by decide)⟩

theorem remove_antenna_eq_self {half_binary : Mask}
    (h : (regionsOf (complement half_binary)).length < 2) :
    remove_antenna half_binary = half_binary := by
  unfold remove_antenna
  split
  · rename_i R1 R2 rest heq
    have hlen := sortByDesc_length Region.area (regionsOf (complement half_binary))
    rw [heq] at hlen
    simp only [List.length_cons] at hlen
    omega
  · rfl

/-- C6.  For every half-mask whose background has fewer than 2
four-connected regions, the Antenna Remover returns the input mask
unchanged; with at least 2 background regions (the stable descending
area sort starts `R1 :: R2 :: _`, and `R1`, `R2` are then the two
largest) it returns a fresh copy in which exactly the pixels in the
intersection of the two largest background regions each dilated 35
iterations (4-connected) are cleared to background, and all other pixels
are unchanged. -/
theorem remove_antenna_spec (half_binary : Mask) :
    ((regionsOf (complement half_binary)).length < 2 →
      remove_antenna half_binary = half_binary) ∧
    (∀ R1 R2 rest,
      sortByDesc Region.area (regionsOf (complement half_binary)) =
        R1 :: R2 :: rest →
      (R2.area ≤ R1.area ∧ ∀ R ∈ rest, R.area ≤ R2.area) ∧
      remove_antenna half_binary =
        mkGrid (height half_binary) (width half_binary) fun r c =>
          if get (dilate35 (maskOfCoords (height half_binary)
                (width half_binary) R1.coords)) r c &&
              get (dilate35 (maskOfCoords (height half_binary)
                (width half_binary) R2.coords)) r c
            then false else get half_binary r c) := by
  constructor
  · exact remove_antenna_eq_self
  · intro R1 R2 rest heq
    have hpw := sortByDesc_pairwise Region.area
      (regionsOf (complement half_binary))
    rw [heq] at hpw
    rcases List.pairwise_cons.mp hpw with ⟨h1, hpw2⟩
    rcases List.pairwise_cons.mp hpw2 with ⟨h2, -⟩
    refine ⟨⟨h1 R2 (List.mem_cons_self _ _), h2⟩, ?_⟩
    unfold remove_antenna
    rw [heq]

/-- C6 witness: the no-op branch on `[[true]]` (no background region) and
the clearing branch on `[[false, true, false]]` (two one-pixel
background regions). -/
theorem remove_antenna_spec_witness :
    remove_antenna [[true]] = [[true]] ∧
      ((Region.area ⟨[(0, 2)]⟩ ≤ Region.area ⟨[(0, 0)]⟩ ∧
          ∀ R ∈ ([] : List Region), R.area ≤ Region.area ⟨[(0, 2)]⟩) ∧
        remove_antenna [[false, true, false]] =
          mkGrid (height [[false, true, false]])
            (width [[false, true, false]]) fun r c =>
            if get (dilate35 (maskOfCoords (height [[false, true, false]])
                  (width [[false, true, false]]) [(0, 0)])) r c &&
                get (dilate35 (maskOfCoords (height [[false, true, false]])
                  (width [[false, true, false]]) [(0, 2)])) r c
              then false else get [[false, true, false]] r c) :=
  ⟨(remove_antenna_spec [[true]]).1 (by decide),
    (remove_antenna_spec [[false, true, false]]).2 ⟨[(0, 0)]⟩ ⟨[(0, 2)]⟩ []
      (by decide)⟩

/-- A 1×40 half-mask with background pixels at columns 1 and 38.  The
first application of the Antenna Remover clears columns 3–36 (the
intersection of the two dilated background regions), which leaves three
background regions; the second application then clears columns 0 and 2
as well, so the result changes again. -/
def maskC7 : Mask := [(List.range 40).map fun c => !(c == 1 || c == 38)]

/-- C7 counterexample: the Antenna Remover is not idempotent; on
`maskC7` the second application clears further pixels. -/
theorem remove_antenna_not_idempotent :
    remove_antenna (remove_antenna maskC7) ≠ remove_antenna maskC7 := by
  decide

/-- C7 amended.  Applying the Antenna Remover twice yields the same mask
as applying it once *whenever the once-processed mask's background has
fewer than two 4-connected regions* (then the second application is the
sanctioned no-op); in general the second application can clear
additional pixels, as `maskC7` shows. -/
theorem remove_antenna_twice (half_binary : Mask)
    (h : (regionsOf (complement (remove_antenna half_binary))).length < 2) :
    remove_antenna (remove_antenna half_binary) = remove_antenna half_binary :=
  remove_antenna_eq_self h

/-- C7 amended witness: on `[[true]]` one application is a no-op and the
background stays a single (empty) region set, so twice equals once. -/
theorem remove_antenna_twice_witness :
    (regionsOf (complement (remove_antenna [[true]]))).length < 2 ∧
      remove_antenna (remove_antenna [[true]]) = remove_antenna [[true]] :=
  ⟨by decide, remove_antenna_twice [[true]] (by decide)⟩

/-- The degenerate-histogram guard of `skimage.filters.threshold_otsu`:
an empty or constant sequence of intensities has no bimodal split (the
library raises `ValueError: threshold_otsu is expected to work with
images having more than one color`). -/
def otsuDegen (vals : List Rat) : Bool :=
  match vals with
  | [] => true
  | v :: vs => vs.all fun x => decide (x = v)

theorem threshold_otsu_degen {vals : List Rat} (nbins : Nat)
    (h : otsuDegen vals = true) :
    threshold_otsu vals nbins = .error .valueError := by
  match vals with
  | [] => rfl
  | v :: vs =>
    unfold threshold_otsu
    simp only
    rw [if_pos (by simpa [otsuDegen] using h)]

/-- C4 counterexample: on a 2×2 image whose channel 0 is constant, the
Binarizer fails with the untyped `ValueError` of the thresholding
library, not with a typed `ThresholdingFailed` (no such type exists in
the code). -/
theorem binarization_main_not_typed :
    binarization_main [[(1, 2, 3), (1, 5, 6)], [(1, 0, 0), (1, 9, 9)]] 1 =
        .error .valueError ∧
      binarization_main [[(1, 2, 3), (1, 5, 6)], [(1, 0, 0), (1, 9, 9)]] 1 ≠
        .error .thresholdingFailed :=
  ⟨by decide, by decide⟩

/-- C4 amended.  For every RGB image and `top_ruler` for which either
Otsu threshold computation is degenerate (the selected channel, or the
rescaled saturation crop, has constant intensity with no bimodal split),
the Binarizer fails — but with the library's untyped `ValueError`, not
with a typed `ThresholdingFailed` error. -/
theorem binarization_main_untyped (image_rgb : RGBImage) (top_ruler : Nat) :
    (otsuDegen (flattenQ (channel0 image_rgb)) = true →
      binarization_main image_rgb top_ruler = .error .valueError) ∧
    (∀ t e, threshold_otsu (flattenQ (channel0 image_rgb)) 60 = .ok t →
      find_tags_edge (grayGT (channel0 image_rgb) t) top_ruler = .ok e →
      otsuDegen (flattenQ (rescale255 (satChannel
        ((image_rgb.take top_ruler).map (List.take e))))) = true →
      binarization_main image_rgb top_ruler = .error .valueError) := by
  constructor
  · intro hdeg
    unfold binarization_main
    simp only
    rw [threshold_otsu_degen 60 hdeg]
  · intro t e h1 h2 hdeg
    unfold binarization_main
    simp only
    rw [h1]
    simp only
    rw [h2]
    simp only
    rw [threshold_otsu_degen 256 hdeg]

/-- C4 amended witness: the first-Otsu branch of the theorem applied to
the constant-channel image of the counterexample. -/
theorem binarization_main_untyped_witness :
    otsuDegen (flattenQ (channel0
        [[(1, 2, 3), (1, 5, 6)], [(1, 0, 0), (1, 9, 9)]])) = true ∧
      binarization_main [[(1, 2, 3), (1, 5, 6)], [(1, 0, 0), (1, 9, 9)]] 1 =
        .error .valueError :=
  ⟨by decide,
    (binarization_main_untyped
      [[(1, 2, 3), (1, 5, 6)], [(1, 0, 0), (1, 9, 9)]] 1).1 (by decide)⟩

/-- C5 amended.  When the Tag-Edge Finder's eroded sub-window yields zero
regions, and when the Outer Pixel Detector finds zero foreground
regions, each component fails — but with the untyped `ValueError` of an
empty numpy reduction (`np.min([])` / `np.argmax([])`), not with a typed
`NoRegionsFound` error (no such type exists in the code). -/
theorem no_regions_untyped (binary : Mask) (top_ruler : Nat)
    (half_binary : Mask) (center : Int × Int)
    (h1 : regionsOf (erode (fill_holes (tags_focus binary top_ruler))) = [])
    (h2 : regionsOf half_binary = []) :
    (find_tags_edge binary top_ruler = .error .valueError ∧
      find_tags_edge binary top_ruler ≠ .error .noRegionsFound) ∧
    (detect_outer_pix half_binary center = .error .valueError ∧
      detect_outer_pix half_binary center ≠ .error .noRegionsFound) := by
  have hf : find_tags_edge binary top_ruler = .error .valueError := by
    unfold find_tags_edge
    simp only
    rw [h1]
    rfl
  have hd : detect_outer_pix half_binary center = .error .valueError := by
    unfold detect_outer_pix
    rw [h2]
    rfl
  refine ⟨⟨hf, ?_⟩, ⟨hd, ?_⟩⟩
  · rw [hf]
    decide
  · rw [hd]
    decide

/-- C5 counterexample: on the all-background 2×2 mask the Tag-Edge
Finder, and on `[[false]]` the Outer Pixel Detector, answer the untyped
`ValueError`, not `NoRegionsFound`, refuting the typed-error claim. -/
theorem no_regions_untyped_counter :
    find_tags_edge [[false, false], [false, false]] 2 = .error .valueError ∧
      find_tags_edge [[false, false], [false, false]] 2 ≠
        .error .noRegionsFound ∧
      detect_outer_pix [[false]] ((0 : Int), (0 : Int)) = .error .valueError ∧
      detect_outer_pix [[false]] ((0 : Int), (0 : Int)) ≠
        .error .noRegionsFound := by
  refine ⟨by decide, by decide, by decide, by decide⟩

/-- C5 amended witness: the theorem applied to the two concrete
zero-region inputs of the counterexample. -/
theorem no_regions_untyped_witness :
    (regionsOf (erode (fill_holes
        (tags_focus [[false, false], [false, false]] 2))) = [] ∧
      regionsOf [[false]] = []) ∧
      ((find_tags_edge [[false, false], [false, false]] 2 =
            .error .valueError ∧
          find_tags_edge [[false, false], [false, false]] 2 ≠
            .error .noRegionsFound) ∧
        (detect_outer_pix [[false]] ((0 : Int), (0 : Int)) =
            .error .valueError ∧
          detect_outer_pix [[false]] ((0 : Int), (0 : Int)) ≠
            .error .noRegionsFound)) :=
  ⟨⟨by decide, by decide⟩,
    no_regions_untyped [[false, false], [false, false]] 2 [[false]] (0, 0)
      (by decide) (by decide)⟩

end Kururu

